import Mathlib

/-!
Shallow embedding of the discrete Bayes-tree core of gtsam
(`DiscreteBayesTree.cpp`, `DiscreteConditional.cpp`, `DiscreteValues.h`),
with theorems settling the specification claims about it.

Doubles are modelled as rationals (`ℚ`); `DiscreteValues`
(`Assignment<Key>`, a `std::map<Key, size_t>`) is modelled as an
association list observed through lookup; the external compact-table
substrate (`AlgebraicDecisionTree`) and the standard-library random
machinery are modelled abstractly, as described on their definitions.
-/

/-- A variable key (`gtsam::Key`). -/
abbrev Key := Nat

/-- `DiscreteValues = Assignment<Key>`: a map from keys to value indices,
modelled as an association list whose observable content is given by
`dvLookup` (first binding wins, so consing a pair is map assignment). -/
abbrev DiscreteValues := List (Key × Nat)

/-- `map::at` / `map::find`: the value bound to `j`, if any. -/
def dvLookup : DiscreteValues → Key → Option Nat
  | [], _ => none
  | (k, v) :: rest, j => if k = j then some v else dvLookup rest j

/-- Modelled from the spec: the compact table substrate
(`AlgebraicDecisionTree`, an external collaborator consumed here only
through "evaluate at an assignment" and "restrict by variable = value").
A table is its evaluation function on partial valuations. -/
structure ADT where
  eval : (Key → Option Nat) → ℚ

/-- Modelled from the spec: `ADT::choose(j, value)` restricts the table by
fixing variable `j` to `value`; evaluating the restricted table is
evaluating the original one with `j` overridden. -/
def ADT.choose (t : ADT) (j : Key) (value : Nat) : ADT :=
  ⟨fun a => t.eval (fun k => if k = j then some value else a k)⟩

/-- `ADT::operator()(assignment)`: evaluate the table at an assignment. -/
def ADT.evalAt (t : ADT) (dv : DiscreteValues) : ℚ :=
  t.eval (dvLookup dv)

/-- Error taxonomy of the spec: `MissingParentValue` is the
`runtime_error` thrown by `DiscreteConditional::choose`;
`UnsupportedArity` is the failure of solve/sample/chooseAsFactor on a
conditional with more than one frontal variable (a thrown
`runtime_error` in `chooseAsFactor`, an `assert(nrFrontals() == 1)` in
`solve`/`sample`/`sampleInPlace`, both embedded as hard failures). -/
inductive DiscreteError where
  | missingParentValue
  | unsupportedArity
deriving DecidableEq

/-- `gtsam::DiscreteConditional`: a conditional P(Frontals | Parents)
backed by a compact table. Following the `Conditional` base class, the
key list stores the frontal keys first; `nrFrontals` of them are
frontal and the rest are parents. `card` is the `cardinality` map. -/
structure DiscreteConditional where
  keys : List Key
  nrFrontals : Nat
  card : Key → Nat
  adt : ADT

/-- `Conditional::frontals()`: the first `nrFrontals` keys. -/
def DiscreteConditional.frontals (c : DiscreteConditional) : List Key :=
  c.keys.take c.nrFrontals

/-- `Conditional::parents()`: the keys after the frontal ones. -/
def DiscreteConditional.parents (c : DiscreteConditional) : List Key :=
  c.keys.drop c.nrFrontals

/-- `Conditional::firstFrontalKey()`: the front of the key list. -/
def DiscreteConditional.firstFrontalKey (c : DiscreteConditional) : Key :=
  c.keys.headD 0

/-- `DecisionTreeFactor::operator()(values)`, the "evaluateJoint" of the
spec: the conditional's table evaluated at the assignment. -/
def DiscreteConditional.evaluateJoint (c : DiscreteConditional)
    (values : DiscreteValues) : ℚ :=
  c.adt.evalAt values

/-- The parent-restriction loop of `DiscreteConditional::choose`: for
each parent key in order, look its value up in the evidence (failing
with `MissingParentValue` when absent, the `catch` branch) and narrow
the table by it. -/
def chooseAux (parentsValues : DiscreteValues) :
    List Key → ADT → Except DiscreteError ADT
  | [], pFS => .ok pFS
  | j :: rest, pFS =>
    match dvLookup parentsValues j with
    | some value => chooseAux parentsValues rest (pFS.choose j value)
    | none => .error .missingParentValue

/-- `DiscreteConditional::choose(parentsValues)`: start from the full
table and narrow it by each parent in the parent list. -/
def DiscreteConditional.choose (c : DiscreteConditional)
    (parentsValues : DiscreteValues) : Except DiscreteError ADT :=
  chooseAux parentsValues c.parents c.adt

mutual

/-- `DiscreteBayesTreeClique`: one conditional plus child cliques. -/
inductive DiscreteBayesTreeClique where
  | node (conditional : DiscreteConditional)
      (children : List DiscreteBayesTreeClique)

end

mutual

/-- `DiscreteBayesTreeClique::evaluate(values)`: evaluate the clique's
own conditional at `values`, then multiply in each child's `evaluate`
at the same `values` (the `for` loop over `children`). -/
def DiscreteBayesTreeClique.evaluate :
    DiscreteBayesTreeClique → DiscreteValues → ℚ
  | .node conditional children, values =>
    evalChildren children values (conditional.evaluateJoint values)

/-- The accumulator loop `for (child : children) result *= child->evaluate(values)`. -/
def evalChildren :
    List DiscreteBayesTreeClique → DiscreteValues → ℚ → ℚ
  | [], _, result => result
  | child :: rest, values, result =>
    evalChildren rest values (result * child.evaluate values)

end

/-- `DiscreteBayesTree`: an ordered forest of root cliques (`roots_`). -/
structure DiscreteBayesTree where
  roots : List DiscreteBayesTreeClique

/-- `DiscreteBayesTree::evaluate(values)`: start from `1.0` and multiply
in each root clique's `evaluate` (the `for` loop over `roots_`). -/
def DiscreteBayesTree.evaluate (t : DiscreteBayesTree)
    (values : DiscreteValues) : ℚ :=
  t.roots.foldl (fun result root => result * root.evaluate values) 1

/-- The scan loop of `DiscreteConditional::solve`: `mpe = 0; maxP = 0;`
then for each `value` of the frontal key in increasing order, evaluate
the restricted table at `frontals[j] = value` and update the running
maximum on a strict `pValueS > maxP` comparison. `solveScan pFS j k`
is the `(mpe, maxP)` pair after the values `0, …, k-1` have been
scanned. -/
def solveScan (pFS : ADT) (j : Key) : Nat → Nat × ℚ
  | 0 => (0, 0)
  | k + 1 =>
    let acc := solveScan pFS j k
    let pValueS := pFS.evalAt [(j, k)]
    if acc.2 < pValueS then (k, pValueS) else acc

/-- `DiscreteConditional::solve(parentsValues)`: restrict by the parent
evidence, then scan the frontal key's values for the running maximum.
The source's `assert(nrFrontals() == 1)` is embedded as a hard
`UnsupportedArity` failure. -/
def DiscreteConditional.solve (c : DiscreteConditional)
    (parentsValues : DiscreteValues) : Except DiscreteError Nat :=
  match c.choose parentsValues with
  | .error e => .error e
  | .ok pFS =>
    if c.nrFrontals = 1 then
      .ok (solveScan pFS c.firstFrontalKey (c.card c.firstFrontalKey)).1
    else .error .unsupportedArity

/-- Modelled from the spec: the process-wide `std::mt19937` engine, a
deterministic pseudo-random generator whose whole behaviour is a
function of its seed; modelled as a state advanced by a fixed
transition function. -/
structure Mt19937 where
  state : Nat
deriving DecidableEq

/-- Modelled from the spec: constructing the engine from a seed. -/
def mkMt19937 (seed : Nat) : Mt19937 :=
  ⟨seed⟩

/-- Modelled from the spec: one deterministic draw from the engine
(a linear-congruential step standing in for the mt19937 transition;
the claims depend only on the transition being a function). -/
def mtNext (g : Mt19937) : Nat × Mt19937 :=
  let s := (6364136223846793005 * g.state + 1442695040888963407) % 2 ^ 64
  (s, ⟨s⟩)

/-- Weighted index selection: the index whose cumulative-weight bracket
contains the target. -/
def pickIndex : List ℚ → ℚ → Nat
  | [], _ => 0
  | [_], _ => 0
  | w :: rest, t => if t < w then 0 else pickIndex rest (t - w) + 1

/-- Modelled from the spec: `std::discrete_distribution` applied to the
engine — a deterministic function of the weight vector and the engine
state, returning an index and the advanced state. -/
def discreteDistribution (p : List ℚ) (g : Mt19937) : Nat × Mt19937 :=
  let (r, g2) := mtNext g
  (pickIndex p (((r % 1000000 : Nat) : ℚ) / 1000000 * p.sum), g2)

/-- The seed of `static mt19937 rng(2)` in `DiscreteConditional::sample`:
the literal constant `2`. -/
def rngSeed : Nat := 2

/-- The probability-gathering loop of `DiscreteConditional::sample`:
for each `value` of the frontal key in increasing order starting at
`start` (with `fuel` values left to visit), evaluate the restricted
table at `frontals[key] = value`; if the probability is exactly `1`,
return that value at once (`return value; // shortcut exit`), else
append it to the weight vector `p`. -/
def sampleScan (pFS : ADT) (key : Key) (start : Nat) :
    Nat → List ℚ → Sum Nat (List ℚ)
  | 0, p => .inr p
  | fuel + 1, p =>
    let pv := pFS.evalAt [(key, start)]
    if pv = 1 then .inl start
    else sampleScan pFS key (start + 1) fuel (p ++ [pv])

/-- `DiscreteConditional::sample(parentsValues)`: restrict by the parent
evidence, gather the frontal values' probabilities (with the
probability-one shortcut, which leaves the generator untouched), and
otherwise draw from the discrete distribution over them, advancing the
process-wide generator. The source's `assert(nrFrontals() == 1)` is
embedded as a hard `UnsupportedArity` failure. -/
def DiscreteConditional.sample (c : DiscreteConditional)
    (parentsValues : DiscreteValues) (g : Mt19937) :
    Except DiscreteError (Nat × Mt19937) :=
  match c.choose parentsValues with
  | .error e => .error e
  | .ok pFS =>
    if c.nrFrontals = 1 then
      match sampleScan pFS c.firstFrontalKey 0
          (c.card c.firstFrontalKey) [] with
      | .inl value => .ok (value, g)
      | .inr p => .ok (discreteDistribution p g)
    else .error .unsupportedArity

/-- `gtsam::DecisionTreeFactor`, as far as `chooseAsFactor` constructs
one: a list of (key, cardinality) pairs plus the table. -/
structure DecisionTreeFactor where
  dkeys : List (Key × Nat)
  adt : ADT

/-- `DiscreteConditional::chooseAsFactor(parentsValues)` (the spec's
`toFactor`): restrict by the parent evidence, then — failing with the
thrown `runtime_error` ("Expected only one frontal variable") when
`nrFrontals() != 1` — wrap the restricted table as a factor over the
single frontal key. -/
def DiscreteConditional.chooseAsFactor (c : DiscreteConditional)
    (parentsValues : DiscreteValues) :
    Except DiscreteError DecisionTreeFactor :=
  match c.choose parentsValues with
  | .error e => .error e
  | .ok pFS =>
    if c.nrFrontals = 1 then
      .ok ⟨[(c.keys.headD 0, c.card (c.keys.headD 0))], pFS⟩
    else .error .unsupportedArity

/-- Modelled from the spec: `cartesianProduct(keys)` enumerating all
possible configurations of the given (key, cardinality) list. -/
def cartesianProduct : List (Key × Nat) → List DiscreteValues
  | [] => [[]]
  | (j, c) :: rest =>
    (List.range c).flatMap
      (fun v => (cartesianProduct rest).map (fun dv => (j, v) :: dv))

/-- `DiscreteConditional::solveInPlace(values)`: restrict by the parent
evidence read out of `values`, scan all frontal configurations for the
most probable one `mpe` (strict `pValueS > maxP` update, `maxP`
initialised to `0` and `mpe` to the empty assignment), and write
`mpe[j]` back into `values` for every frontal key `j` (`std::map`
`operator[]` on a missing key yields the default value `0`). -/
def DiscreteConditional.solveInPlace (c : DiscreteConditional)
    (values : DiscreteValues) : Except DiscreteError DiscreteValues :=
  match c.choose values with
  | .error e => .error e
  | .ok pFS =>
    let allPosbValues :=
      cartesianProduct (c.frontals.map (fun j => (j, c.card j)))
    let mpe := (allPosbValues.foldl
      (fun (acc : DiscreteValues × ℚ) frontalVals =>
        let pValueS := pFS.evalAt frontalVals
        if acc.2 < pValueS then (frontalVals, pValueS) else acc)
      ([], 0)).1
    .ok (c.frontals.foldl
      (fun vs j => (j, (dvLookup mpe j).getD 0) :: vs) values)

/-- `DiscreteConditional::sampleInPlace(values)`: sample the single
frontal variable given the parent evidence read out of `values` and
write the result back at the frontal key. The source's
`assert(nrFrontals() == 1)` is embedded as a hard `UnsupportedArity`
failure. -/
def DiscreteConditional.sampleInPlace (c : DiscreteConditional)
    (values : DiscreteValues) (g : Mt19937) :
    Except DiscreteError (DiscreteValues × Mt19937) :=
  if c.nrFrontals = 1 then
    match c.sample values g with
    | .error e => .error e
    | .ok res => .ok ((c.firstFrontalKey, res.1) :: values, res.2)
  else .error .unsupportedArity

/-- One `sample()` request in a process's call sequence. -/
structure SampleCall where
  cond : DiscreteConditional
  evidence : DiscreteValues

/-- A process's sequence of `sample()` calls threading the single
process-wide generator: each successful call advances it, a failing
call throws before the generator is touched and leaves it unchanged. -/
def runCalls : List SampleCall → Mt19937 → List (Except DiscreteError Nat)
  | [], _ => []
  | call :: rest, g =>
    match call.cond.sample call.evidence g with
    | .ok (v, g2) => .ok v :: runCalls rest g2
    | .error e => .error e :: runCalls rest g

/-- A freshly started process performing a sequence of `sample()` calls.
`entropy` is the ambient randomness an entropy-seeded implementation
would consume at startup; the source instead seeds the process-wide
generator once, at first use, with the fixed constant `rngSeed`
(`static mt19937 rng(2)`), so the ambient entropy is never consulted. -/
def runProcess (_entropy : Nat) (calls : List SampleCall) :
    List (Except DiscreteError Nat) :=
  runCalls calls (mkMt19937 rngSeed)

/-- Fixture (the spec's P(Y|X) scenario): table with
P(Y=0|X=0)=9/10, P(Y=1|X=0)=1/10, P(Y=0|X=1)=2/10, P(Y=1|X=1)=8/10,
with Y as key 1 and X as key 0. -/
def exTableYX : ADT :=
  ⟨fun a =>
    if a 0 = some 0 then (if a 1 = some 0 then 9/10 else 1/10)
    else (if a 1 = some 0 then 2/10 else 8/10)⟩

/-- Fixture: conditional P(Y|X), frontal key 1, parent key 0. -/
def exCondYX : DiscreteConditional :=
  ⟨[1, 0], 1, fun _ => 2, exTableYX⟩

/-- Fixture (the spec's P(X) scenario, scaled by 10): parentless binary
table [3, 7] on key 0. -/
def exTableX : ADT :=
  ⟨fun a => if a 0 = some 0 then 3 else if a 0 = some 1 then 7 else 0⟩

/-- Fixture: parentless conditional over key 0 with table [3, 7]. -/
def exCondX : DiscreteConditional :=
  ⟨[0], 1, fun _ => 2, exTableX⟩

/-- Fixture: the all-zero table. -/
def exTableZero : ADT :=
  ⟨fun _ => 0⟩

/-- Fixture: parentless conditional over key 3 whose table is all zero. -/
def exCondZero : DiscreteConditional :=
  ⟨[3], 1, fun _ => 2, exTableZero⟩

/-- Fixture: a conditional with two frontal variables (keys 4 and 5). -/
def exCondTwo : DiscreteConditional :=
  ⟨[4, 5], 2, fun _ => 2, exTableZero⟩

/-- Fixture: degenerate table on key 0 with all mass on value 1. -/
def exTableDet : ADT :=
  ⟨fun a => if a 0 = some 1 then 1 else 0⟩

/-- Fixture: parentless conditional over key 0 whose table is the
degenerate [0, 1]. -/
def exCondDet : DiscreteConditional :=
  ⟨[0], 1, fun _ => 2, exTableDet⟩

theorem foldl_mul_map_prod {α : Type} (f : α → ℚ) (l : List α) (a : ℚ) :
    l.foldl (fun r x => r * f x) a = a * (l.map f).prod := by
  induction l generalizing a with
  | nil => simp
  | cons x xs ih => simp [ih, mul_assoc]

theorem evalChildren_eq_prod (cs : List DiscreteBayesTreeClique)
    (values : DiscreteValues) (a : ℚ) :
    evalChildren cs values a
      = a * (cs.map (fun c => c.evaluate values)).prod := by
  induction cs generalizing a with
  | nil => simp [evalChildren]
  | cons c rest ih => simp [evalChildren, ih, mul_assoc]

/-- C1: for every assignment, `DiscreteBayesTree.evaluate` returns the
product, over all root cliques of the tree, of that root clique's
`evaluate` applied to the same assignment. -/
theorem claim_C1 (t : DiscreteBayesTree) (values : DiscreteValues) :
    t.evaluate values
      = (t.roots.map (fun root => root.evaluate values)).prod := by
  rw [DiscreteBayesTree.evaluate, foldl_mul_map_prod, one_mul]

/-- C2: for every assignment, `DiscreteBayesTreeClique.evaluate` returns
the value of the clique's own conditional at the assignment multiplied
by the product of `evaluate` over every child clique, with the full
assignment passed unchanged to every child. -/
theorem claim_C2 (conditional : DiscreteConditional)
    (children : List DiscreteBayesTreeClique) (values : DiscreteValues) :
    (DiscreteBayesTreeClique.node conditional children).evaluate values
      = conditional.evaluateJoint values
          * (children.map (fun child => child.evaluate values)).prod := by
  rw [DiscreteBayesTreeClique.evaluate, evalChildren_eq_prod]

/-- C10: on a tree with no root cliques, `DiscreteBayesTree.evaluate`
returns exactly 1 (the empty product) for every assignment. -/
theorem claim_C10 (t : DiscreteBayesTree) (values : DiscreteValues)
    (h : t.roots = []) : t.evaluate values = 1 := by
  rw [DiscreteBayesTree.evaluate, h]
  rfl

theorem claim_C10_witness :
    (DiscreteBayesTree.mk []).roots = [] ∧
      (DiscreteBayesTree.mk []).evaluate [] = 1 :=
  ⟨rfl, claim_C10 (DiscreteBayesTree.mk []) [] rfl⟩

theorem chooseAux_ok_of_all_present (pv : DiscreteValues) (js : List Key)
    (t : ADT) (h : ∀ j ∈ js, dvLookup pv j ≠ none) :
    chooseAux pv js t
      = .ok (js.foldl (fun u j => u.choose j ((dvLookup pv j).getD 0)) t) := by
  induction js generalizing t with
  | nil => rfl
  | cons j rest ih =>
    have hj := h j (List.mem_cons_self j rest)
    match hjl : dvLookup pv j with
    | none => exact absurd hjl hj
    | some v =>
      rw [chooseAux, hjl, List.foldl_cons, hjl]
      exact ih _ (fun k hk => h k (List.mem_cons_of_mem j hk))

theorem chooseAux_error_of_missing (pv : DiscreteValues) (js : List Key)
    (t : ADT) (h : ∃ j ∈ js, dvLookup pv j = none) :
    chooseAux pv js t = .error .missingParentValue := by
  induction js generalizing t with
  | nil => simp at h
  | cons j rest ih =>
    match hjl : dvLookup pv j with
    | none => rw [chooseAux, hjl]
    | some v =>
      rw [chooseAux, hjl]
      apply ih
      rcases h with ⟨k, hk, hkn⟩
      rcases List.mem_cons.1 hk with rfl | hk2
      · rw [hjl] at hkn; cases hkn
      · exact ⟨k, hk2, hkn⟩

/-- C3: `choose` fails with `MissingParentValue` if and only if some
variable in the node's parent list is absent from the supplied
evidence; when every parent is present it returns the table restricted
by each parent variable to its evidence value, narrowing one parent at
a time. -/
theorem claim_C3 (c : DiscreteConditional) (pv : DiscreteValues) :
    (c.choose pv = .error .missingParentValue ↔
        ∃ j ∈ c.parents, dvLookup pv j = none) ∧
      ((∀ j ∈ c.parents, dvLookup pv j ≠ none) →
        c.choose pv = .ok (c.parents.foldl
          (fun t j => t.choose j ((dvLookup pv j).getD 0)) c.adt)) := by
  refine ⟨⟨?_, ?_⟩, ?_⟩
  · intro herr
    by_contra hno
    push_neg at hno
    rw [DiscreteConditional.choose,
      chooseAux_ok_of_all_present pv c.parents c.adt hno] at herr
    cases herr
  · intro hex
    exact chooseAux_error_of_missing pv c.parents c.adt hex
  · intro hall
    exact chooseAux_ok_of_all_present pv c.parents c.adt hall

theorem claim_C3_witness :
    (∀ j ∈ exCondYX.parents, dvLookup [(0, 0)] j ≠ none) ∧
      exCondYX.choose [(0, 0)] = .ok (exCondYX.parents.foldl
        (fun t j => t.choose j ((dvLookup [(0, 0)] j).getD 0))
        exCondYX.adt) :=
  ⟨by decide, (claim_C3 exCondYX [(0, 0)]).2 (by decide)⟩

theorem solveScan_succ (pFS : ADT) (j : Key) (k : Nat) :
    solveScan pFS j (k + 1)
      = if (solveScan pFS j k).2 < pFS.evalAt [(j, k)]
        then (k, pFS.evalAt [(j, k)]) else solveScan pFS j k := rfl

theorem solveScan_le (pFS : ADT) (j : Key) (k : Nat) :
    ∀ v < k, pFS.evalAt [(j, v)] ≤ (solveScan pFS j k).2 := by
  induction k with
  | zero => intro v hv; omega
  | succ k ih =>
    intro v hv
    rw [solveScan_succ]
    by_cases hc : (solveScan pFS j k).2 < pFS.evalAt [(j, k)]
    · rw [if_pos hc]
      rcases Nat.lt_succ_iff_lt_or_eq.1 hv with h | rfl
      · exact le_of_lt (lt_of_le_of_lt (ih v h) hc)
      · exact le_refl _
    · rw [if_neg hc]
      rcases Nat.lt_succ_iff_lt_or_eq.1 hv with h | rfl
      · exact ih v h
      · exact not_lt.1 hc

theorem solveScan_snd_eq (pFS : ADT) (j : Key) (k : Nat) :
    (solveScan pFS j k).2 = pFS.evalAt [(j, (solveScan pFS j k).1)] ∨
      ((solveScan pFS j k).1 = 0 ∧ (solveScan pFS j k).2 = 0) := by
  induction k with
  | zero => exact Or.inr ⟨rfl, rfl⟩
  | succ k ih =>
    rw [solveScan_succ]
    by_cases hc : (solveScan pFS j k).2 < pFS.evalAt [(j, k)]
    · rw [if_pos hc]; exact Or.inl rfl
    · rw [if_neg hc]; exact ih

theorem solveScan_fst_lt (pFS : ADT) (j : Key) (k : Nat) (hk : 0 < k) :
    (solveScan pFS j k).1 < k := by
  induction k with
  | zero => omega
  | succ k ih =>
    rw [solveScan_succ]
    by_cases hc : (solveScan pFS j k).2 < pFS.evalAt [(j, k)]
    · rw [if_pos hc]; exact Nat.lt_succ_self k
    · rw [if_neg hc]
      rcases Nat.eq_zero_or_pos k with rfl | hpos
      · exact Nat.lt_succ_self 0
      · exact Nat.lt_succ_of_lt (ih hpos)

theorem solveScan_min (pFS : ADT) (j : Key) (k : Nat) :
    ∀ u < (solveScan pFS j k).1,
      pFS.evalAt [(j, u)] < (solveScan pFS j k).2 := by
  induction k with
  | zero => intro u hu; cases hu
  | succ k ih =>
    rw [solveScan_succ]
    by_cases hc : (solveScan pFS j k).2 < pFS.evalAt [(j, k)]
    · rw [if_pos hc]
      intro u hu
      exact lt_of_le_of_lt (solveScan_le pFS j k u hu) hc
    · rw [if_neg hc]; exact ih

theorem solveScan_all_zero (pFS : ADT) (j : Key) (k : Nat)
    (h : ∀ v < k, pFS.evalAt [(j, v)] = 0) :
    solveScan pFS j k = (0, 0) := by
  induction k with
  | zero => rfl
  | succ k ih =>
    rw [solveScan_succ, ih (fun v hv => h v (Nat.lt_succ_of_lt hv)),
      h k (Nat.lt_succ_self k)]
    simp

/-- C4: for a conditional with exactly one frontal variable of
cardinality `k` and fully specified parent evidence (so that `choose`
returns the restricted table `pFS`, whose values are non-negative),
`solve` returns an index `vstar < k` whose restricted value is greater
than or equal to the value at every `v < k`, and every index below
`vstar` has a strictly smaller value — so the lowest maximiser wins
ties. -/
theorem claim_C4 (c : DiscreteConditional) (pv : DiscreteValues)
    (pFS : ADT) (hch : c.choose pv = .ok pFS) (h1 : c.nrFrontals = 1)
    (hk : 0 < c.card c.firstFrontalKey)
    (hpos : ∀ v < c.card c.firstFrontalKey,
      0 ≤ pFS.evalAt [(c.firstFrontalKey, v)]) :
    ∃ vstar,
      c.solve pv = .ok vstar ∧
      vstar < c.card c.firstFrontalKey ∧
      (∀ v < c.card c.firstFrontalKey,
        pFS.evalAt [(c.firstFrontalKey, v)]
          ≤ pFS.evalAt [(c.firstFrontalKey, vstar)]) ∧
      (∀ u < vstar,
        pFS.evalAt [(c.firstFrontalKey, u)]
          < pFS.evalAt [(c.firstFrontalKey, vstar)]) := by
  refine ⟨(solveScan pFS c.firstFrontalKey
      (c.card c.firstFrontalKey)).1, ?_, ?_, ?_, ?_⟩
  · rw [DiscreteConditional.solve, hch]
    dsimp only
    rw [if_pos h1]
  · exact solveScan_fst_lt pFS c.firstFrontalKey _ hk
  · intro v hv
    rcases solveScan_snd_eq pFS c.firstFrontalKey
        (c.card c.firstFrontalKey) with heq | ⟨hf, hs⟩
    · rw [← heq]
      exact solveScan_le pFS c.firstFrontalKey _ v hv
    · rw [hf]
      calc pFS.evalAt [(c.firstFrontalKey, v)]
          ≤ (solveScan pFS c.firstFrontalKey (c.card c.firstFrontalKey)).2 :=
            solveScan_le pFS c.firstFrontalKey _ v hv
        _ = 0 := hs
        _ ≤ pFS.evalAt [(c.firstFrontalKey, 0)] := hpos 0 hk
  · intro u hu
    rcases solveScan_snd_eq pFS c.firstFrontalKey
        (c.card c.firstFrontalKey) with heq | ⟨hf, hs⟩
    · rw [← heq]
      exact solveScan_min pFS c.firstFrontalKey _ u hu
    · rw [hf] at hu; cases hu

theorem claim_C4_witness :
    ∃ vstar,
      exCondX.solve [] = .ok vstar ∧
      vstar < exCondX.card exCondX.firstFrontalKey ∧
      (∀ v < exCondX.card exCondX.firstFrontalKey,
        exTableX.evalAt [(exCondX.firstFrontalKey, v)]
          ≤ exTableX.evalAt [(exCondX.firstFrontalKey, vstar)]) ∧
      (∀ u < vstar,
        exTableX.evalAt [(exCondX.firstFrontalKey, u)]
          < exTableX.evalAt [(exCondX.firstFrontalKey, vstar)]) :=
  claim_C4 exCondX [] exTableX rfl rfl (by decide) (by decide)

/-- C9: for a single-frontal conditional with fully specified parent
evidence whose restricted table is zero at every frontal value, `solve`
returns value 0 as a fallback rather than failing. -/
theorem claim_C9 (c : DiscreteConditional) (pv : DiscreteValues)
    (pFS : ADT) (hch : c.choose pv = .ok pFS) (h1 : c.nrFrontals = 1)
    (hzero : ∀ v < c.card c.firstFrontalKey,
      pFS.evalAt [(c.firstFrontalKey, v)] = 0) :
    c.solve pv = .ok 0 := by
  rw [DiscreteConditional.solve, hch]
  dsimp only
  rw [if_pos h1, solveScan_all_zero pFS c.firstFrontalKey _ hzero]

theorem claim_C9_witness :
    exCondZero.solve [] = .ok 0 :=
  claim_C9 exCondZero [] exTableZero rfl rfl (by decide)

/-- C5: `solve`, `sample`, and `chooseAsFactor` (the spec's `toFactor`),
invoked with fully specified parent evidence on a conditional with more
than one frontal variable, fail with `UnsupportedArity` rather than
returning a result. -/
theorem claim_C5 (c : DiscreteConditional) (pv : DiscreteValues)
    (g : Mt19937) (h : 1 < c.nrFrontals)
    (hev : ∀ j ∈ c.parents, dvLookup pv j ≠ none) :
    c.solve pv = .error .unsupportedArity ∧
      c.sample pv g = .error .unsupportedArity ∧
      c.chooseAsFactor pv = .error .unsupportedArity := by
  have hok := chooseAux_ok_of_all_present pv c.parents c.adt hev
  have h1 : ¬ c.nrFrontals = 1 := by omega
  refine ⟨?_, ?_, ?_⟩
  · rw [DiscreteConditional.solve, DiscreteConditional.choose, hok]
    dsimp only
    rw [if_neg h1]
  · rw [DiscreteConditional.sample, DiscreteConditional.choose, hok]
    dsimp only
    rw [if_neg h1]
  · rw [DiscreteConditional.chooseAsFactor, DiscreteConditional.choose, hok]
    dsimp only
    rw [if_neg h1]

theorem claim_C5_witness :
    exCondTwo.solve [] = .error .unsupportedArity ∧
      exCondTwo.sample [] (mkMt19937 rngSeed) = .error .unsupportedArity ∧
      exCondTwo.chooseAsFactor [] = .error .unsupportedArity :=
  claim_C5 exCondTwo [] (mkMt19937 rngSeed) (by decide) (by decide)

theorem zero_of_sum_one (f : Nat → ℚ) (k v : Nat) (hv : v < k)
    (hpos : ∀ u < k, 0 ≤ f u) (hone : f v = 1)
    (hsum : ∑ u ∈ Finset.range k, f u = 1) :
    ∀ u < k, u ≠ v → f u = 0 := by
  intro u hu hne
  have hvmem : v ∈ Finset.range k := Finset.mem_range.2 hv
  have hsplit := Finset.add_sum_erase (Finset.range k) f hvmem
  rw [hone, hsum] at hsplit
  have hrest : ∑ x ∈ (Finset.range k).erase v, f x = 0 := by linarith
  have hnn : ∀ x ∈ (Finset.range k).erase v, 0 ≤ f x := fun x hx =>
    hpos x (Finset.mem_range.1 (Finset.mem_erase.1 hx).2)
  exact (Finset.sum_eq_zero_iff_of_nonneg hnn).1 hrest u
    (Finset.mem_erase.2 ⟨hne, Finset.mem_range.2 hu⟩)

theorem sampleScan_succ (pFS : ADT) (key : Key) (start fuel : Nat)
    (p : List ℚ) :
    sampleScan pFS key start (fuel + 1) p
      = if pFS.evalAt [(key, start)] = 1 then .inl start
        else sampleScan pFS key (start + 1) fuel
          (p ++ [pFS.evalAt [(key, start)]]) := rfl

theorem sampleScan_hits (pFS : ADT) (key : Key) (v : Nat) :
    ∀ (start fuel : Nat) (p : List ℚ), start ≤ v → v < start + fuel →
      pFS.evalAt [(key, v)] = 1 →
      (∀ u, start ≤ u → u < v → pFS.evalAt [(key, u)] ≠ 1) →
      sampleScan pFS key start fuel p = .inl v := by
  intro start fuel
  induction fuel generalizing start with
  | zero => intro p hle hlt hone hno; omega
  | succ fuel ih =>
    intro p hle hlt hone hno
    rw [sampleScan_succ]
    by_cases hs : start = v
    · subst hs
      rw [if_pos hone]
    · have hne : pFS.evalAt [(key, start)] ≠ 1 :=
        hno start le_rfl (by omega)
      rw [if_neg hne]
      exact ih (start + 1) _ (by omega) (by omega) hone
        (fun u hu1 hu2 => hno u (by omega) hu2)

/-- C6: for a single-frontal conditional with fully specified parent
evidence (restricted table `pFS`, non-negative and summing to 1 over
the frontal values), if some frontal value `v` has restricted
probability exactly 1, then `sample` returns `v` deterministically —
for every generator state, with the generator left untouched. -/
theorem claim_C6 (c : DiscreteConditional) (pv : DiscreteValues)
    (pFS : ADT) (g : Mt19937) (v : Nat)
    (hch : c.choose pv = .ok pFS) (h1 : c.nrFrontals = 1)
    (hv : v < c.card c.firstFrontalKey)
    (hone : pFS.evalAt [(c.firstFrontalKey, v)] = 1)
    (hpos : ∀ u < c.card c.firstFrontalKey,
      0 ≤ pFS.evalAt [(c.firstFrontalKey, u)])
    (hsum : ∑ u ∈ Finset.range (c.card c.firstFrontalKey),
        pFS.evalAt [(c.firstFrontalKey, u)] = 1) :
    c.sample pv g = .ok (v, g) := by
  have hzero := zero_of_sum_one
    (fun u => pFS.evalAt [(c.firstFrontalKey, u)]) _ v hv hpos hone hsum
  have hscan : sampleScan pFS c.firstFrontalKey 0
      (c.card c.firstFrontalKey) [] = .inl v := by
    apply sampleScan_hits pFS c.firstFrontalKey v 0 _ []
      (Nat.zero_le v) (by omega) hone
    intro u hu0 huv
    have hz : pFS.evalAt [(c.firstFrontalKey, u)] = 0 :=
      hzero u (by omega) (by omega)
    rw [hz]
    norm_num
  rw [DiscreteConditional.sample, hch]
  dsimp only
  rw [if_pos h1, hscan]

theorem claim_C6_witness :
    exCondDet.sample [] (mkMt19937 rngSeed)
      = .ok (1, mkMt19937 rngSeed) :=
  claim_C6 exCondDet [] exTableDet (mkMt19937 rngSeed) 1 rfl rfl
    (by decide) (by decide) (by decide)
    (by
      show ∑ u ∈ Finset.range 2, exTableDet.evalAt [(0, u)] = 1
      rw [show (2 : ℕ) = 1 + 1 from rfl, Finset.sum_range_succ,
        Finset.sum_range_one]
      norm_num [ADT.evalAt, exTableDet, dvLookup])

/-- C7: sampling is deterministic across runs — the generator used by
`sample` is a single process-wide engine seeded once with the fixed
constant `rngSeed`, so two freshly started processes (whatever ambient
entropy each has) performing an identical sequence of `sample` calls
obtain identical results at every call. -/
theorem claim_C7 (entropy1 entropy2 : Nat) (calls : List SampleCall) :
    runProcess entropy1 calls = runProcess entropy2 calls := rfl

theorem dvLookup_writeFrontals (l : List Key) (f : Key → Nat)
    (values : DiscreteValues) (j : Key) (hj : j ∉ l) :
    dvLookup (l.foldl (fun vs k => (k, f k) :: vs) values) j
      = dvLookup values j := by
  induction l generalizing values with
  | nil => rfl
  | cons k rest ih =>
    rw [List.foldl_cons,
      ih ((k, f k) :: values) (fun h => hj (List.mem_cons_of_mem k h))]
    have hk : ¬ k = j := fun h => hj (h ▸ List.mem_cons_self k rest)
    rw [dvLookup, if_neg hk]

/-- C8: `solveInPlace` and `sampleInPlace` mutate the caller-supplied
assignment only at the node's frontal variables: after a successful
call, every key that is not a frontal variable of the node looks up to
the same value it held before the call (stated for any well-formed
conditional, whose frontal count does not exceed its key count). -/
theorem claim_C8 (c : DiscreteConditional) (values : DiscreteValues)
    (values2 : DiscreteValues) (g g2 : Mt19937) (j : Key)
    (hwf : c.nrFrontals ≤ c.keys.length) (hj : j ∉ c.frontals) :
    (c.solveInPlace values = .ok values2 →
      dvLookup values2 j = dvLookup values j) ∧
    (c.sampleInPlace values g = .ok (values2, g2) →
      dvLookup values2 j = dvLookup values j) := by
  constructor
  · intro h
    rw [DiscreteConditional.solveInPlace] at h
    cases hch : c.choose values with
    | error e => rw [hch] at h; cases h
    | ok pFS =>
      rw [hch] at h
      dsimp only at h
      rw [Except.ok.injEq] at h
      rw [← h]
      exact dvLookup_writeFrontals c.frontals _ values j hj
  · intro h
    rw [DiscreteConditional.sampleInPlace] at h
    by_cases h1 : c.nrFrontals = 1
    · rw [if_pos h1] at h
      cases hs : c.sample values g with
      | error e => rw [hs] at h; cases h
      | ok res =>
        rw [hs] at h
        dsimp only at h
        rw [Except.ok.injEq, Prod.mk.injEq] at h
        rw [← h.1]
        have hne : ¬ c.firstFrontalKey = j := by
          intro he
          apply hj
          rw [← he]
          have hlen : 1 ≤ c.keys.length := h1 ▸ hwf
          cases hk : c.keys with
          | nil => rw [hk] at hlen; cases hlen
          | cons a as =>
            rw [DiscreteConditional.frontals,
              DiscreteConditional.firstFrontalKey, hk, h1]
            exact List.mem_cons_self a _
        rw [dvLookup, if_neg hne]
    · rw [if_neg h1] at h
      cases h

theorem claim_C8_witness :
    (exCondDet.solveInPlace [] = .ok [(0, 1)] →
      dvLookup [(0, 1)] 5 = dvLookup [] 5) ∧
    (exCondDet.sampleInPlace [] (mkMt19937 rngSeed)
        = .ok ([(0, 1)], mkMt19937 rngSeed) →
      dvLookup [(0, 1)] 5 = dvLookup [] 5) :=
  claim_C8 exCondDet [] [(0, 1)] (mkMt19937 rngSeed) (mkMt19937 rngSeed)
    5 (by decide) (by decide)
